import Mathlib

/-
Verification of the geometric collision / particle engine of the circles
repository (src/main.py) against its natural-language specification.

The Python source works on floating-point numbers; we model them with the
real numbers, so every equation claimed only up to floating epsilon is
proved exactly.  Randomness (random(), uniform(), randint(), choice()) is
modelled by passing each drawn value as an explicit parameter, constrained
to the exact support of the corresponding draw.  pygame primitives that the
source calls (Vector2.normalize, Vector2.reflect, Circle.contains, the
mask-overlap test) are external collaborators; they are modelled from the
specification and marked as such in their doc comments.
-/

open Real

open scoped Classical

noncomputable section

namespace Circles

/-- The constant ARC_DELTA = pi / 6 from the source (line 15). -/
def ARC_DELTA : ℝ := Real.pi / 6

/-- The constant PARTICLE_LIFETIME = 40 from the source (line 21). -/
def PARTICLE_LIFETIME : ℝ := 40

/-- The constant PARTICLE_AMOUNT = 200 from the source (line 22). -/
def PARTICLE_AMOUNT : ℕ := 200

/-- Shorthand for the full angle 2 * pi. -/
def twoPi : ℝ := 2 * Real.pi

/-- Python modulo with positive modulus 2 * pi: x % (2 * pi), which equals
x - 2 * pi * floor (x / (2 * pi)) for float operands. -/
def wrap (x : ℝ) : ℝ := x - twoPi * ⌊x / twoPi⌋

theorem twoPi_pos : 0 < twoPi := by
  unfold twoPi
  have := Real.pi_pos
  linarith

theorem wrap_nonneg (x : ℝ) : 0 ≤ wrap x := by
  unfold wrap
  have hfl := Int.floor_le (x / twoPi)
  have h2 : (0:ℝ) < twoPi := twoPi_pos
  have hmul : twoPi * (⌊x / twoPi⌋ : ℝ) ≤ twoPi * (x / twoPi) :=
    mul_le_mul_of_nonneg_left hfl h2.le
  rw [mul_div_cancel₀ x (ne_of_gt h2)] at hmul
  linarith

theorem wrap_lt (x : ℝ) : wrap x < twoPi := by
  unfold wrap
  have hfl := Int.lt_floor_add_one (x / twoPi)
  have h2 : (0:ℝ) < twoPi := twoPi_pos
  have hmul : twoPi * (x / twoPi) < twoPi * ((⌊x / twoPi⌋ : ℝ) + 1) :=
    (mul_lt_mul_left h2).mpr hfl
  rw [mul_div_cancel₀ x (ne_of_gt h2)] at hmul
  linarith

theorem wrap_eq_self {x : ℝ} (h0 : 0 ≤ x) (h1 : x < twoPi) : wrap x = x := by
  unfold wrap
  have h2 : (0:ℝ) < twoPi := twoPi_pos
  have hfl : ⌊x / twoPi⌋ = 0 := by
    rw [Int.floor_eq_zero_iff]
    constructor
    · exact div_nonneg h0 h2.le
    · exact (div_lt_one h2).mpr h1
  rw [hfl]
  simp

theorem wrap_eq_add {x : ℝ} (h0 : -twoPi ≤ x) (h1 : x < 0) : wrap x = x + twoPi := by
  unfold wrap
  have h2 : (0:ℝ) < twoPi := twoPi_pos
  have hfl : ⌊x / twoPi⌋ = -1 := by
    rw [Int.floor_eq_iff]
    push_cast
    constructor
    · rw [le_div_iff h2]
      linarith
    · have := div_neg_of_neg_of_pos h1 h2
      linarith
  rw [hfl]
  push_cast
  ring

/-- Shifting the argument by an integer multiple of 2 * pi does not change
its wrapped value. -/
theorem wrap_add_int_mul (x : ℝ) (n : ℤ) : wrap (x + twoPi * n) = wrap x := by
  unfold wrap
  have h2 : (0:ℝ) < twoPi := twoPi_pos
  have harg : (x + twoPi * n) / twoPi = x / twoPi + n := by
    field_simp
    ring
  rw [harg, Int.floor_add_int]
  push_cast
  ring

/-- Membership in the excluded interval of angles: theta lies in the set
[start, start + length) taken mod 2 * pi exactly when the forward angular
distance from start to theta is below length. -/
def inCut (start length θ : ℝ) : Prop := wrap (θ - start) < length

/-- The excluded interval is invariant under wrapping its start. -/
theorem wrap_sub_wrap (θ s : ℝ) : wrap (θ - s) = wrap (θ - wrap s) := by
  have h : θ - s = (θ - wrap s) + twoPi * ((-⌊s / twoPi⌋ : ℤ) : ℝ) := by
    unfold wrap
    push_cast
    ring
  rw [h, wrap_add_int_mul]

/-- The upper bound of the uniform draw inside random_angle_with_cut
(source lines 255 and 261): the combined length of the allowed arcs, computed
per branch exactly as the source does, with s = start % 2pi and e = s + length. -/
def totalLen (start length : ℝ) : ℝ :=
  if twoPi < wrap start + length then wrap start - wrap (wrap start + length)
  else wrap start + (twoPi - (wrap start + length))

/-- The angle computed by random_angle_with_cut (source lines 248-269) once
the length checks have passed, with the uniform(0, total_length) draw passed
in as the parameter u. -/
def angleWithCut (start length u : ℝ) : ℝ :=
  if twoPi < wrap start + length then
    wrap (wrap (wrap start + length) + u)
  else
    if u < wrap start then wrap u
    else wrap ((wrap start + length) + (u - wrap start))

/-- random_angle_with_cut (source lines 242-269): rejects a non-positive
length or a length of at least 2 * pi (the source raises ValueError there,
modelled as none), and otherwise returns the sampled angle. -/
def random_angle_with_cut (start length u : ℝ) : Option ℝ :=
  if length ≤ 0 then none
  else if twoPi ≤ length then none
  else some (angleWithCut start length u)

theorem random_angle_with_cut_some {start length u : ℝ}
    (h0 : 0 < length) (h2 : length < twoPi) :
    random_angle_with_cut start length u = some (angleWithCut start length u) := by
  unfold random_angle_with_cut
  rw [if_neg (by linarith), if_neg (by linarith)]

/-- Claim C6: random_angle_with_cut fails exactly when the requested cut
length is non-positive or at least 2 * pi; for every length strictly between
0 and 2 * pi it returns an angle normally. -/
theorem random_angle_error_iff (start length u : ℝ) :
    random_angle_with_cut start length u = none ↔ (length ≤ 0 ∨ twoPi ≤ length) := by
  unfold random_angle_with_cut
  split_ifs with h1 h2
  · simp [h1]
  · simp [h2]
  · simp
    exact ⟨lt_of_not_le h1, lt_of_not_le h2⟩

theorem wrap_sub_twoPi {x : ℝ} (h0 : twoPi ≤ x) (h1 : x < 2 * twoPi) :
    wrap x = x - twoPi :=
  calc wrap x = wrap ((x - twoPi) + twoPi * ((1:ℤ) : ℝ)) := by push_cast; ring_nf
    _ = wrap (x - twoPi) := wrap_add_int_mul _ _
    _ = x - twoPi := wrap_eq_self (by linarith) (by linarith)

/-- In both branches the combined allowed length equals 2 * pi - length. -/
theorem totalLen_eq {start length : ℝ} (h0 : 0 < length) (h2 : length < twoPi) :
    totalLen start length = twoPi - length := by
  have hs0 : 0 ≤ wrap start := wrap_nonneg start
  have hs1 : wrap start < twoPi := wrap_lt start
  unfold totalLen
  split_ifs with hcase
  · rw [wrap_sub_twoPi hcase.le (by linarith)]
    ring
  · ring

/-- Core sampling lemma: for a valid cut length and a draw u inside the
uniform support [0, total_length), the sampled angle avoids the excluded
interval.  Exact real arithmetic: uniform(0, b) = b * random() with
random() in [0, 1), so the draw lies in [0, b). -/
theorem angleWithCut_avoids (start length u : ℝ)
    (h0 : 0 < length) (h2 : length < twoPi)
    (hu0 : 0 ≤ u) (hu : u < totalLen start length) :
    ¬ inCut start length (angleWithCut start length u) := by
  have hs0 : 0 ≤ wrap start := wrap_nonneg start
  have hs1 : wrap start < twoPi := wrap_lt start
  rw [totalLen_eq h0 h2] at hu
  unfold inCut
  rw [wrap_sub_wrap]
  unfold angleWithCut
  split_ifs with hcase hb
  · -- wrap-around branch: the allowed arc is [e - 2pi, s)
    have hew : wrap (wrap start + length) = wrap start + length - twoPi :=
      wrap_sub_twoPi hcase.le (by linarith)
    rw [hew]
    have harg0 : 0 ≤ wrap start + length - twoPi + u := by linarith
    have harg1 : wrap start + length - twoPi + u < twoPi := by linarith
    rw [wrap_eq_self harg0 harg1]
    have hd0 : -twoPi ≤ wrap start + length - twoPi + u - wrap start := by linarith
    have hd1 : wrap start + length - twoPi + u - wrap start < 0 := by linarith
    rw [wrap_eq_add hd0 hd1]
    intro hlt
    linarith
  · -- no-wrap branch, draw lands in the first allowed arc [0, s)
    have hbs : u < wrap start := hb
    rw [wrap_eq_self hu0 (by linarith)]
    have hd0 : -twoPi ≤ u - wrap start := by linarith
    have hd1 : u - wrap start < 0 := by linarith
    rw [wrap_eq_add hd0 hd1]
    intro hlt
    have hcase2 : wrap start + length ≤ twoPi := le_of_not_lt hcase
    linarith
  · -- no-wrap branch, draw lands in the second allowed arc [e, 2pi)
    have hbs : wrap start ≤ u := le_of_not_lt hb
    have harg0 : 0 ≤ wrap start + length + (u - wrap start) := by linarith
    have harg1 : wrap start + length + (u - wrap start) < twoPi := by linarith
    rw [wrap_eq_self harg0 harg1]
    have hd0 : 0 ≤ wrap start + length + (u - wrap start) - wrap start := by linarith
    have hd1 : wrap start + length + (u - wrap start) - wrap start < twoPi := by linarith
    rw [wrap_eq_self hd0 hd1]
    intro hlt
    linarith

/-- Claim C4: for every start value, every cut length strictly between 0 and
2 * pi and every draw of the uniform random source, the angle returned by
random_angle_with_cut lies outside the excluded interval
[start, start + length) taken mod 2 * pi. -/
theorem random_angle_avoids_cut (start length u θ : ℝ)
    (h0 : 0 < length) (h2 : length < twoPi)
    (hu0 : 0 ≤ u) (hu : u < totalLen start length)
    (hθ : random_angle_with_cut start length u = some θ) :
    ¬ inCut start length θ := by
  rw [random_angle_with_cut_some h0 h2] at hθ
  have hθ2 : θ = angleWithCut start length u := (Option.some.inj hθ).symm
  rw [hθ2]
  exact angleWithCut_avoids start length u h0 h2 hu0 hu

/-- Witness for claim C4 at start = pi, length = pi / 2, draw u = 1. -/
theorem random_angle_avoids_cut_witness :
    (0:ℝ) < Real.pi / 2 ∧ Real.pi / 2 < twoPi ∧ (0:ℝ) ≤ 1 ∧
    (1:ℝ) < totalLen Real.pi (Real.pi / 2) ∧
    random_angle_with_cut Real.pi (Real.pi / 2) 1 =
      some (angleWithCut Real.pi (Real.pi / 2) 1) ∧
    ¬ inCut Real.pi (Real.pi / 2) (angleWithCut Real.pi (Real.pi / 2) 1) := by
  have hπ : (3:ℝ) < Real.pi := Real.pi_gt_three
  have h0 : (0:ℝ) < Real.pi / 2 := by linarith
  have h2 : Real.pi / 2 < twoPi := by unfold twoPi; linarith
  have htot : (1:ℝ) < totalLen Real.pi (Real.pi / 2) := by
    rw [totalLen_eq h0 h2]
    unfold twoPi
    linarith
  exact ⟨h0, h2, by norm_num, htot, random_angle_with_cut_some h0 h2,
    random_angle_avoids_cut Real.pi (Real.pi / 2) 1 _ h0 h2 (by norm_num) htot
      (random_angle_with_cut_some h0 h2)⟩

theorem wrap_zero : wrap 0 = 0 := wrap_eq_self le_rfl twoPi_pos

theorem ARC_DELTA_pos : 0 < ARC_DELTA := by
  unfold ARC_DELTA
  have := Real.pi_pos
  linarith

theorem ARC_DELTA_lt_twoPi : ARC_DELTA < twoPi := by
  unfold ARC_DELTA twoPi
  have := Real.pi_pos
  linarith

/-- Modelled from the spec: pygame Vector2.rotate_rad, rotation of a 2D
vector by t radians (counterclockwise in the drawing convention); only norm
preservation matters for the claims below. -/
def rotRad (t : ℝ) (v : ℝ × ℝ) : ℝ × ℝ :=
  (v.1 * Real.cos t - v.2 * Real.sin t, v.1 * Real.sin t + v.2 * Real.cos t)

/-- The state of an Arc that break_arc reads: circle center and radius,
current angle, the three color channels, and the alive flag. -/
structure ArcState where
  cx : ℝ
  cy : ℝ
  radius : ℝ
  angle : ℝ
  colorR : ℕ
  colorG : ℕ
  colorB : ℕ
  alive : Bool

/-- A particle as spawned by break_arc together with the sampled angle it
was placed at: Particle init copies the color channels and forces alpha to
255 (source lines 216-217); position components are arc center plus the
rotated radius vector (source lines 277-278). -/
structure SpawnedParticle where
  theta : ℝ
  posX : ℝ
  posY : ℝ
  colorR : ℕ
  colorG : ℕ
  colorB : ℕ
  alpha : ℕ
  radius : ℕ

/-- The angle sampled for one spawned particle (source line 276):
random_angle_with_cut(arc.angle - ARC_DELTA, ARC_DELTA) with draw u. -/
def spawnTheta (arc : ArcState) (u : ℝ) : ℝ :=
  (random_angle_with_cut (arc.angle - ARC_DELTA) ARC_DELTA u).getD 0

/-- One particle spawned by break_arc (source lines 276-278). -/
def spawnParticle (arc : ArcState) (u : ℝ) (rad : ℕ) : SpawnedParticle :=
  { theta := spawnTheta arc u
    posX := arc.cx + (rotRad (-(spawnTheta arc u)) (arc.radius, 0)).1
    posY := arc.cy + (rotRad (-(spawnTheta arc u)) (arc.radius, 0)).2
    colorR := arc.colorR
    colorG := arc.colorG
    colorB := arc.colorB
    alpha := 255
    radius := rad }

/-- break_arc (source lines 272-278): kills the arc and spawns
PARTICLE_AMOUNT particles; the random draws of the 200 sampled angles and
particle radii are passed as functions. -/
def break_arc (arc : ArcState) (us : Fin PARTICLE_AMOUNT → ℝ)
    (rads : Fin PARTICLE_AMOUNT → ℕ) : ArcState × List SpawnedParticle :=
  ({ arc with alive := false },
   (List.finRange PARTICLE_AMOUNT).map (fun i => spawnParticle arc (us i) (rads i)))

/-- Membership in the CLOSED interval [start, start + length] mod 2 * pi,
which is how claim C5 states the excluded wedge. -/
def inCutClosed (start length θ : ℝ) : Prop := wrap (θ - start) ≤ length

/-- What claim C5 asserts of each spawned particle, with the wedge interval
taken half-open as the sampler actually guarantees. -/
def goodSpawn (arc : ArcState) (p : SpawnedParticle) : Prop :=
  p.colorR = arc.colorR ∧ p.colorG = arc.colorG ∧ p.colorB = arc.colorB ∧
  p.alpha = 255 ∧
  Real.sqrt ((p.posX - arc.cx) ^ 2 + (p.posY - arc.cy) ^ 2) = arc.radius ∧
  ¬ inCut (arc.angle - ARC_DELTA) ARC_DELTA p.theta

theorem spawnTheta_eq (arc : ArcState) (u : ℝ) :
    spawnTheta arc u = angleWithCut (arc.angle - ARC_DELTA) ARC_DELTA u := by
  unfold spawnTheta
  rw [random_angle_with_cut_some ARC_DELTA_pos ARC_DELTA_lt_twoPi]
  rfl

/-- Claim C5 (amended): break_arc kills the arc and spawns exactly 200
particles, each carrying the arc color with alpha 255, each at distance
equal to the arc radius from the arc center, and none sampled inside the
half-open wedge interval [angle - delta, angle) mod 2 * pi. -/
theorem break_arc_spawn_spec (arc : ArcState) (us : Fin PARTICLE_AMOUNT → ℝ)
    (rads : Fin PARTICLE_AMOUNT → ℕ)
    (hr : 0 ≤ arc.radius)
    (hus : ∀ i, 0 ≤ us i ∧ us i < totalLen (arc.angle - ARC_DELTA) ARC_DELTA) :
    (break_arc arc us rads).1.alive = false ∧
    (break_arc arc us rads).2.length = PARTICLE_AMOUNT ∧
    (break_arc arc us rads).2.Forall (goodSpawn arc) := by
  refine ⟨rfl, by simp [break_arc], ?_⟩
  rw [List.forall_iff_forall_mem]
  intro p hp
  unfold break_arc at hp
  simp only [List.mem_map] at hp
  obtain ⟨i, _, hpi⟩ := hp
  rw [← hpi]
  unfold goodSpawn spawnParticle
  refine ⟨rfl, rfl, rfl, rfl, ?_, ?_⟩
  · simp only [rotRad]
    have hkey : (arc.cx + (arc.radius * Real.cos (-(spawnTheta arc (us i))) -
        0 * Real.sin (-(spawnTheta arc (us i)))) - arc.cx) ^ 2 +
        (arc.cy + (arc.radius * Real.sin (-(spawnTheta arc (us i))) +
        0 * Real.cos (-(spawnTheta arc (us i)))) - arc.cy) ^ 2 = arc.radius ^ 2 := by
      have hsc := Real.sin_sq_add_cos_sq (-(spawnTheta arc (us i)))
      ring_nf
      nlinarith [hsc]
    rw [hkey, Real.sqrt_sq hr]
  · rw [spawnTheta_eq]
    exact angleWithCut_avoids _ _ _ ARC_DELTA_pos ARC_DELTA_lt_twoPi (hus i).1 (hus i).2

/-- A concrete arc whose angle equals the wedge width, used to exhibit the
attainable endpoint of the closed wedge interval. -/
def cxArc : ArcState := ⟨0, 0, 5, ARC_DELTA, 200, 50, 30, true⟩

/-- Counterexample to claim C5 as stated: with the all-zero draw vector the
first spawned particle is sampled at exactly the arc angle, which lies inside
the CLOSED wedge interval [angle - delta, angle]. -/
theorem break_arc_closed_wedge_cx :
    ¬ ((break_arc cxArc (fun _ => 0) (fun _ => 1)).2.Forall
        (fun p => ¬ inCutClosed (cxArc.angle - ARC_DELTA) ARC_DELTA p.theta)) := by
  intro h
  rw [List.forall_iff_forall_mem] at h
  have hmem : spawnParticle cxArc 0 1 ∈ (break_arc cxArc (fun _ => 0) (fun _ => 1)).2 := by
    unfold break_arc
    simp only [List.mem_map]
    exact ⟨(⟨0, by norm_num [PARTICLE_AMOUNT]⟩ : Fin PARTICLE_AMOUNT),
      List.mem_finRange _, by simp⟩
  have hzero : cxArc.angle - ARC_DELTA = 0 := by
    simp [cxArc]
  have hθ : (spawnParticle cxArc 0 1).theta = ARC_DELTA := by
    show spawnTheta cxArc 0 = ARC_DELTA
    rw [spawnTheta_eq]
    unfold angleWithCut
    rw [hzero, wrap_zero]
    rw [if_neg (by have := ARC_DELTA_lt_twoPi; intro hcon; simp at hcon; linarith)]
    rw [if_neg (by norm_num)]
    have harg : (0:ℝ) + ARC_DELTA + (0 - 0) = ARC_DELTA := by ring
    rw [harg]
    exact wrap_eq_self ARC_DELTA_pos.le ARC_DELTA_lt_twoPi
  have := h _ hmem
  apply this
  unfold inCutClosed
  rw [hθ, hzero, sub_zero, wrap_eq_self ARC_DELTA_pos.le ARC_DELTA_lt_twoPi]

/-- A concrete arc used by the witness of the amended claim C5. -/
def witArc : ArcState := ⟨1, 2, 3, 1, 10, 20, 30, true⟩

/-- Witness for the amended claim C5 at a concrete arc with the all-zero
draw vector. -/
theorem break_arc_spawn_spec_witness :
    (0:ℝ) ≤ witArc.radius ∧
    (break_arc witArc (fun _ => 0) (fun _ => 2)).1.alive = false ∧
    (break_arc witArc (fun _ => 0) (fun _ => 2)).2.length = PARTICLE_AMOUNT ∧
    (break_arc witArc (fun _ => 0) (fun _ => 2)).2.Forall (goodSpawn witArc) := by
  have hr : (0:ℝ) ≤ witArc.radius := by norm_num [witArc]
  have hus : ∀ i : Fin PARTICLE_AMOUNT, 0 ≤ (fun _ : Fin PARTICLE_AMOUNT => (0:ℝ)) i ∧
      (fun _ : Fin PARTICLE_AMOUNT => (0:ℝ)) i <
        totalLen (witArc.angle - ARC_DELTA) ARC_DELTA := by
    intro i
    refine ⟨le_rfl, ?_⟩
    rw [totalLen_eq ARC_DELTA_pos ARC_DELTA_lt_twoPi]
    show (0:ℝ) < twoPi - ARC_DELTA
    have := ARC_DELTA_lt_twoPi
    linarith
  exact ⟨hr, break_arc_spawn_spec witArc _ _ hr hus⟩

/-- Squared Euclidean norm of a 2D vector. -/
def vnormSq (v : ℝ × ℝ) : ℝ := v.1 ^ 2 + v.2 ^ 2

/-- Euclidean norm of a 2D vector, as pygame Vector2.length computes it. -/
def vnorm (v : ℝ × ℝ) : ℝ := Real.sqrt (vnormSq v)

/-- Scalar multiple of a 2D vector. -/
def vsmul (t : ℝ) (v : ℝ × ℝ) : ℝ × ℝ := (t * v.1, t * v.2)

/-- Dot product of 2D vectors. -/
def vdot (a b : ℝ × ℝ) : ℝ := a.1 * b.1 + a.2 * b.2

/-- Modelled from the spec: the standard vector reflection about a normal,
v - 2 (v . n) n; the call sites below always pass a unit normal, where this
coincides with pygame Vector2.reflect. -/
def vreflect (v n : ℝ × ℝ) : ℝ × ℝ :=
  (v.1 - 2 * vdot v n * n.1, v.2 - 2 * vdot v n * n.2)

/-- Modelled from the spec: pygame Vector2.rotate, rotation by an angle
given in degrees. -/
def rotDeg (deg : ℝ) (v : ℝ × ℝ) : ℝ × ℝ :=
  rotRad (deg * Real.pi / 180) v

/-- A circle as pygame.geometry.Circle: center coordinates and radius. -/
structure Circ where
  cx : ℝ
  cy : ℝ
  r : ℝ

/-- Center-to-center distance of two circles. -/
def cdist (a b : Circ) : ℝ :=
  Real.sqrt ((a.cx - b.cx) ^ 2 + (a.cy - b.cy) ^ 2)

/-- Modelled from the spec: pygame Circle.contains for a circle argument,
full containment of inner in outer: center distance plus inner radius at
most the outer radius. -/
def circleContains (outer inner : Circ) : Prop :=
  cdist outer inner + inner.r ≤ outer.r

/-- The ball circle after the penetration-resolution move of
Arc.collide_ball (source lines 179-183): radius = R_a - r_b, length = center
distance, then move by normalize(velocity) * (radius - length). -/
def collideMoved (arcC ballC : Circ) (vel : ℝ × ℝ) : Circ :=
  ⟨ballC.cx + (arcC.r - ballC.r -
      Real.sqrt ((arcC.cx - ballC.cx) ^ 2 + (arcC.cy - ballC.cy) ^ 2)) *
      ((vnorm vel)⁻¹ * vel.1),
   ballC.cy + (arcC.r - ballC.r -
      Real.sqrt ((arcC.cx - ballC.cx) ^ 2 + (arcC.cy - ballC.cy) ^ 2)) *
      ((vnorm vel)⁻¹ * vel.2),
   ballC.r⟩

/-- The spec description of the same move: the ball center displaced along
the direction of its pre-call velocity by (allowed_radius - d). -/
def movedAlongVelocity (arcC ballC : Circ) (vel : ℝ × ℝ) : Circ :=
  ⟨ballC.cx + ((arcC.r - ballC.r - cdist arcC ballC) / vnorm vel) * vel.1,
   ballC.cy + ((arcC.r - ballC.r - cdist arcC ballC) / vnorm vel) * vel.2,
   ballC.r⟩

/-- Arc.collide_ball (source lines 178-184): resolves penetration, then
mask-tests ball against the drawn wedge.  The mask overlap is computed by
pygame (external); its result is passed in as maskHit.  The call
ball.velocity.normalize() raises on a zero velocity (modelled from the spec:
a degenerate-vector error), so the whole call fails with none then. -/
def collide_ball (arcC ballC : Circ) (vel : ℝ × ℝ) (maskHit : Bool) :
    Option (Circ × Bool) :=
  if vel = (0, 0) then none
  else some (collideMoved arcC ballC vel, maskHit)

/-- The per-tick collision dispatch of the main loop (source lines 394-402):
fires when the sprite list (ball first, arcs after it, innermost last) has
more than one element and the last sprite circle does not contain the ball
circle; the target is always the last sprite. -/
def collisionTarget (allSprites : List Circ) (ballC : Circ) : Option Circ :=
  if 1 < allSprites.length ∧ ¬ circleContains (allSprites.getLastD ballC) ballC then
    some (allSprites.getLastD ballC)
  else none

/-- The reflected velocity computed by Ball.reflect (source lines 120-129):
the normal is the normalized center-to-center vector rotated by the jitter
angle (degrees); the velocity is reflected about that jittered normal. -/
def reflectVel (arcC ballC : Circ) (vel : ℝ × ℝ) (jitterDeg : ℝ) : ℝ × ℝ :=
  vreflect vel (rotDeg jitterDeg
    (vsmul (vnorm (arcC.cx - ballC.cx, arcC.cy - ballC.cy))⁻¹
      (arcC.cx - ballC.cx, arcC.cy - ballC.cy)))

theorem sumsq_pos {a b : ℝ} (h : ¬ (a = 0 ∧ b = 0)) : 0 < a ^ 2 + b ^ 2 := by
  rcases not_and_or.mp h with h1 | h1
  · have ha : 0 < |a| := abs_pos.mpr h1
    nlinarith [sq_nonneg b, sq_abs a]
  · have hb : 0 < |b| := abs_pos.mpr h1
    nlinarith [sq_nonneg a, sq_abs b]

/-- Claim C7: for every arc and ball, calling collide_ball with the zero
velocity fails (the velocity normalize raises a degenerate-vector error)
instead of returning a Boolean result. -/
theorem collide_ball_zero_velocity_fails (arcC ballC : Circ) (maskHit : Bool) :
    collide_ball arcC ballC (0, 0) maskHit = none := by
  unfold collide_ball
  rw [if_pos rfl]

/-- Algebraic core of the amended claim C1: when the velocity is a positive
multiple of the outward radial direction, the moved center sits at distance
exactly R - rb from the arc center. -/
theorem snap_radial_core (a1 a2 b1 b2 R rb t : ℝ)
    (ht : 0 < t) (hw : ¬ (b1 - a1 = 0 ∧ b2 - a2 = 0)) (hr : rb ≤ R) :
    Real.sqrt
      ((b1 + (R - rb - Real.sqrt ((a1 - b1) ^ 2 + (a2 - b2) ^ 2)) *
         ((vnorm (t * (b1 - a1), t * (b2 - a2)))⁻¹ * (t * (b1 - a1))) - a1) ^ 2 +
       (b2 + (R - rb - Real.sqrt ((a1 - b1) ^ 2 + (a2 - b2) ^ 2)) *
         ((vnorm (t * (b1 - a1), t * (b2 - a2)))⁻¹ * (t * (b2 - a2))) - a2) ^ 2) =
      R - rb := by
  have hpos : 0 < (b1 - a1) ^ 2 + (b2 - a2) ^ 2 := sumsq_pos hw
  have hD : 0 < Real.sqrt ((b1 - a1) ^ 2 + (b2 - a2) ^ 2) := Real.sqrt_pos.mpr hpos
  set S := Real.sqrt ((b1 - a1) ^ 2 + (b2 - a2) ^ 2) with hSdef
  have hS2 : S ^ 2 = (b1 - a1) ^ 2 + (b2 - a2) ^ 2 := Real.sq_sqrt hpos.le
  have hlen : Real.sqrt ((a1 - b1) ^ 2 + (a2 - b2) ^ 2) = S := by
    rw [hSdef, show (a1 - b1) ^ 2 + (a2 - b2) ^ 2 =
      (b1 - a1) ^ 2 + (b2 - a2) ^ 2 from by ring]
  have hnv : vnorm (t * (b1 - a1), t * (b2 - a2)) = t * S := by
    unfold vnorm vnormSq
    simp only
    rw [show (t * (b1 - a1)) ^ 2 + (t * (b2 - a2)) ^ 2 =
      t ^ 2 * ((b1 - a1) ^ 2 + (b2 - a2) ^ 2) from by ring]
    rw [Real.sqrt_mul (sq_nonneg t), Real.sqrt_sq ht.le, hSdef]
  rw [hlen, hnv]
  have ht0 : t ≠ 0 := ne_of_gt ht
  have hS0 : S ≠ 0 := ne_of_gt hD
  have hsimp1 : b1 + (R - rb - S) * ((t * S)⁻¹ * (t * (b1 - a1))) - a1 =
      ((R - rb) / S) * (b1 - a1) := by
    field_simp
    ring
  have hsimp2 : b2 + (R - rb - S) * ((t * S)⁻¹ * (t * (b2 - a2))) - a2 =
      ((R - rb) / S) * (b2 - a2) := by
    field_simp
    ring
  rw [hsimp1, hsimp2]
  rw [show (((R - rb) / S) * (b1 - a1)) ^ 2 + (((R - rb) / S) * (b2 - a2)) ^ 2 =
    ((R - rb) / S) ^ 2 * ((b1 - a1) ^ 2 + (b2 - a2) ^ 2) from by ring]
  rw [← hS2]
  rw [show ((R - rb) / S) ^ 2 * S ^ 2 = (R - rb) ^ 2 from by field_simp]
  exact Real.sqrt_sq (by linarith)

/-- Claim C1 (amended): collide_ball always displaces the ball center
collinearly with the line of its pre-call velocity, by (R_a - r_b) - d
(possibly negative, moving the ball back inside); the resulting
center-to-arc-center distance equals R_a - r_b exactly when that velocity
points radially outward from the arc center (the escaping-ball
configuration) and R_a is at least r_b. -/
theorem collide_ball_snap_radial (arcC ballC : Circ) (t : ℝ)
    (ht : 0 < t)
    (hw : ¬ (ballC.cx - arcC.cx = 0 ∧ ballC.cy - arcC.cy = 0))
    (hr : ballC.r ≤ arcC.r) :
    collideMoved arcC ballC (t * (ballC.cx - arcC.cx), t * (ballC.cy - arcC.cy)) =
      movedAlongVelocity arcC ballC
        (t * (ballC.cx - arcC.cx), t * (ballC.cy - arcC.cy)) ∧
    cdist (collideMoved arcC ballC
        (t * (ballC.cx - arcC.cx), t * (ballC.cy - arcC.cy))) arcC =
      arcC.r - ballC.r := by
  constructor
  · unfold collideMoved movedAlongVelocity cdist
    simp only [Circ.mk.injEq]
    refine ⟨by ring, by ring, trivial⟩
  · unfold collideMoved cdist
    simp only
    exact snap_radial_core arcC.cx arcC.cy ballC.cx ballC.cy arcC.r ballC.r t ht hw hr

/-- Witness for the amended claim C1: arc at the origin with radius 10, ball
of radius 1 at (3,4), velocity (3,4) pointing radially outward. -/
theorem collide_ball_snap_radial_witness :
    (0:ℝ) < 1 ∧ ¬ ((3:ℝ) - 0 = 0 ∧ (4:ℝ) - 0 = 0) ∧ (1:ℝ) ≤ 10 ∧
    cdist (collideMoved ⟨0, 0, 10⟩ ⟨3, 4, 1⟩
        (1 * ((3:ℝ) - 0), 1 * ((4:ℝ) - 0))) ⟨0, 0, 10⟩ = (10:ℝ) - 1 := by
  have h := collide_ball_snap_radial ⟨0, 0, 10⟩ ⟨3, 4, 1⟩ 1 (by norm_num)
    (by norm_num) (by norm_num)
  exact ⟨by norm_num, by norm_num, by norm_num, h.2⟩

/-- Counterexample to claim C1 as stated: arc of radius 10 at the origin,
ball of radius 1 at (5,0) with velocity (0,1) perpendicular to the center
line; after the snap the center distance is sqrt 41, not 10 - 1 = 9. -/
theorem collide_ball_snap_cx :
    cdist (collideMoved ⟨0, 0, 10⟩ ⟨5, 0, 1⟩ ((0:ℝ), (1:ℝ))) ⟨0, 0, 10⟩ ≠
      (10:ℝ) - 1 := by
  have hlen : Real.sqrt (((0:ℝ) - 5) ^ 2 + ((0:ℝ) - 0) ^ 2) = 5 := by
    rw [show ((0:ℝ) - 5) ^ 2 + ((0:ℝ) - 0) ^ 2 = 5 ^ 2 from by norm_num]
    exact Real.sqrt_sq (by norm_num)
  have hv : vnorm ((0:ℝ), (1:ℝ)) = 1 := by
    unfold vnorm vnormSq
    simp only
    rw [show ((0:ℝ)) ^ 2 + ((1:ℝ)) ^ 2 = 1 from by norm_num]
    exact Real.sqrt_one
  have hmv : collideMoved ⟨0, 0, 10⟩ ⟨5, 0, 1⟩ ((0:ℝ), (1:ℝ)) = ⟨5, 4, 1⟩ := by
    unfold collideMoved
    simp only [Circ.mk.injEq]
    rw [hlen, hv]
    norm_num
  rw [hmv]
  unfold cdist
  simp only
  intro h
  rw [show ((5:ℝ) - 0) ^ 2 + ((4:ℝ) - 0) ^ 2 = 41 from by norm_num] at h
  have hsq : Real.sqrt 41 ^ 2 = (41:ℝ) := Real.sq_sqrt (by norm_num)
  rw [h] at hsq
  norm_num at hsq

/-- Claim C2 (amended): the per-tick collision check fires exactly when at
least one arc remains (the sprite list holds more than just the ball) and
the ball circle is not fully contained in the innermost arc circle, and the
innermost (last) arc is the only possible target. -/
theorem collision_trigger_iff (arcs : List Circ) (ballC : Circ) :
    collisionTarget (ballC :: arcs) ballC =
      if arcs ≠ [] ∧ ¬ circleContains (arcs.getLastD ballC) ballC
      then some (arcs.getLastD ballC) else none := by
  unfold collisionTarget
  cases arcs with
  | nil => simp
  | cons a t =>
    have hlast : (ballC :: a :: t).getLastD ballC = (a :: t).getLastD ballC := by
      simp [List.getLastD_cons]
    rw [hlast]
    have hcond : (1 < (ballC :: a :: t).length ∧
        ¬ circleContains ((a :: t).getLastD ballC) ballC) ↔
        ((a :: t) ≠ [] ∧ ¬ circleContains ((a :: t).getLastD ballC) ballC) := by
      simp [List.length_cons]
    rw [if_congr hcond rfl rfl]

/-- Counterexample to claim C2 as stated: with exactly ONE arc remaining the
check still fires (the source compares the sprite count, which includes the
ball, against 1).  Ball at (4,3) with radius 1, arc at the origin with
radius 2: the ball is not contained, and the dispatch targets the sole arc
even though it is not true that more than one arc remains. -/
theorem collision_trigger_cx :
    collisionTarget ((⟨4, 3, 1⟩ : Circ) :: [(⟨0, 0, 2⟩ : Circ)]) ⟨4, 3, 1⟩ =
      some ⟨0, 0, 2⟩ ∧
    ¬ (1 < [(⟨0, 0, 2⟩ : Circ)].length) := by
  have h5 : Real.sqrt (((0:ℝ) - 4) ^ 2 + ((0:ℝ) - 3) ^ 2) = 5 := by
    rw [show ((0:ℝ) - 4) ^ 2 + ((0:ℝ) - 3) ^ 2 = 5 ^ 2 from by norm_num]
    exact Real.sqrt_sq (by norm_num)
  have hnc : ¬ circleContains ⟨0, 0, 2⟩ ⟨4, 3, 1⟩ := by
    unfold circleContains cdist
    simp only
    rw [h5]
    norm_num
  constructor
  · unfold collisionTarget
    rw [if_pos]
    · simp [List.getLastD_cons]
    · constructor
      · simp
      · simpa [List.getLastD_cons] using hnc
  · simp

theorem rotRad_normSq (θ : ℝ) (m : ℝ × ℝ) : vnormSq (rotRad θ m) = vnormSq m := by
  unfold vnormSq rotRad
  simp only
  linear_combination (m.1 ^ 2 + m.2 ^ 2) * Real.sin_sq_add_cos_sq θ

theorem vreflect_normSq (v m : ℝ × ℝ) (hm : vnormSq m = 1) :
    vnormSq (vreflect v m) = vnormSq v := by
  unfold vnormSq vreflect vdot at *
  linear_combination (2 * (v.1 * m.1 + v.2 * m.2)) ^ 2 * hm

theorem unit_normal (w : ℝ × ℝ) (hw : ¬ (w.1 = 0 ∧ w.2 = 0)) :
    vnormSq (vsmul (vnorm w)⁻¹ w) = 1 := by
  have hpos : 0 < w.1 ^ 2 + w.2 ^ 2 := sumsq_pos hw
  have hsq : vnorm w ^ 2 = w.1 ^ 2 + w.2 ^ 2 := Real.sq_sqrt hpos.le
  have hne : vnorm w ≠ 0 := by
    intro h
    rw [h] at hsq
    nlinarith
  show ((vnorm w)⁻¹ * w.1) ^ 2 + ((vnorm w)⁻¹ * w.2) ^ 2 = 1
  field_simp
  linarith [hsq]

/-- Claim C8: for a ball with nonzero velocity colliding against an arc
whose center differs from the ball center, Ball.reflect preserves the
Euclidean norm of the velocity for every draw of the jitter angle. -/
theorem reflect_preserves_speed (arcC ballC : Circ) (vel : ℝ × ℝ) (jitterDeg : ℝ)
    (hc : ¬ (arcC.cx - ballC.cx = 0 ∧ arcC.cy - ballC.cy = 0))
    (hv : vel ≠ (0, 0)) :
    vnorm (reflectVel arcC ballC vel jitterDeg) = vnorm vel := by
  have hm : vnormSq (rotDeg jitterDeg
      (vsmul (vnorm (arcC.cx - ballC.cx, arcC.cy - ballC.cy))⁻¹
        (arcC.cx - ballC.cx, arcC.cy - ballC.cy))) = 1 := by
    unfold rotDeg
    rw [rotRad_normSq]
    exact unit_normal _ (by simpa using hc)
  unfold reflectVel vnorm
  exact congrArg Real.sqrt (vreflect_normSq vel _ hm)

/-- Witness for claim C8: arc at the origin with radius 10, ball at (3,4)
with radius 1, velocity (1,2), jitter angle 7 degrees. -/
theorem reflect_preserves_speed_witness :
    ¬ ((0:ℝ) - 3 = 0 ∧ (0:ℝ) - 4 = 0) ∧ ((1:ℝ), (2:ℝ)) ≠ (0, 0) ∧
    vnorm (reflectVel ⟨0, 0, 10⟩ ⟨3, 4, 1⟩ (1, 2) 7) = vnorm (1, 2) := by
  refine ⟨by norm_num, by norm_num [Prod.ext_iff], ?_⟩
  exact reflect_preserves_speed ⟨0, 0, 10⟩ ⟨3, 4, 1⟩ (1, 2) 7
    (by norm_num) (by norm_num [Prod.ext_iff])

/-- The alpha channel computed by Particle.update (source lines 229-231):
int(max(min(255 * lifetime / PARTICLE_LIFETIME, 255), 0)); the value inside
int() is non-negative, so Python int() truncation is the floor. -/
def particleAlphaOf (l : ℝ) : ℤ :=
  ⌊max (min (255 * l / PARTICLE_LIFETIME) 255) 0⌋

/-- The state of a Particle: position, velocity, gravity, remaining
lifetime, the alpha channel and the alive flag. -/
structure PState where
  posX : ℝ
  posY : ℝ
  velX : ℝ
  velY : ℝ
  gravX : ℝ
  gravY : ℝ
  lifetime : ℝ
  alpha : ℤ
  alive : Bool

/-- Particle.update (source lines 225-239) at the ambient speed multiplier
mult: move by velocity * mult, accelerate by gravity, decrease lifetime by
mult, recompute alpha from the new lifetime, kill when lifetime reaches 0. -/
def particleUpdate (mult : ℝ) (p : PState) : PState :=
  { posX := p.posX + p.velX * mult
    posY := p.posY + p.velY * mult
    velX := p.velX + p.gravX
    velY := p.velY + p.gravY
    gravX := p.gravX
    gravY := p.gravY
    lifetime := p.lifetime - mult
    alpha := particleAlphaOf (p.lifetime - mult)
    alive := if p.lifetime - mult ≤ 0 then false else p.alive }

/-- Particle init (source lines 199-223): alpha is forced to 255. -/
def particleInit (pX pY vX vY gX gY lifetime : ℝ) : PState :=
  { posX := pX, posY := pY, velX := vX, velY := vY, gravX := gX, gravY := gY,
    lifetime := lifetime, alpha := 255, alive := true }

/-- One Group.update pass as seen by a single particle (source lines 88-93):
an alive sprite is updated, a dead one is pruned and never updated again. -/
def groupStep (mult : ℝ) (p : PState) : PState :=
  if p.alive then particleUpdate mult p else p

/-- A run of successive ticks with the given speed multipliers. -/
def particleRun (mults : List ℝ) (p : PState) : PState :=
  mults.foldl (fun q m => groupStep m q) p

theorem particleRun_cons (m : ℝ) (ms : List ℝ) (p : PState) :
    particleRun (m :: ms) p = particleRun ms (groupStep m p) := rfl

theorem particleRun_replicate_succ (k : ℕ) (p : PState) :
    particleRun (List.replicate (k + 1) 1) p =
      groupStep 1 (particleRun (List.replicate k 1) p) := by
  rw [List.replicate_succ']
  unfold particleRun
  rw [List.foldl_append]
  rfl

theorem particleAlphaOf_le (l : ℝ) : particleAlphaOf l ≤ 255 := by
  unfold particleAlphaOf
  have h1 : max (min (255 * l / PARTICLE_LIFETIME) 255) 0 ≤ (255:ℝ) := by
    apply max_le (min_le_right _ _)
    norm_num
  calc ⌊max (min (255 * l / PARTICLE_LIFETIME) 255) 0⌋ ≤ ⌊(255:ℝ)⌋ :=
        Int.floor_le_floor h1
    _ = 255 := by
        rw [show (255:ℝ) = ((255:ℤ):ℝ) from by norm_num, Int.floor_intCast]

theorem particleAlphaOf_mono {l m : ℝ} (h : l ≤ m) :
    particleAlphaOf l ≤ particleAlphaOf m := by
  unfold particleAlphaOf
  apply Int.floor_le_floor
  apply max_le_max _ le_rfl
  apply min_le_min _ le_rfl
  unfold PARTICLE_LIFETIME
  have h40 : (0:ℝ) < 40 := by norm_num
  exact (div_le_div_right h40).mpr (by linarith)

theorem particleAlphaOf_zero : particleAlphaOf 0 = 0 := by
  unfold particleAlphaOf PARTICLE_LIFETIME
  rw [show (255:ℝ) * 0 / 40 = 0 from by norm_num]
  rw [min_eq_left (by norm_num), max_self]
  exact Int.floor_zero

/-- Invariant: alpha equals the clamp formula at the current lifetime. -/
def alphaConsistent (p : PState) : Prop := p.alpha = particleAlphaOf p.lifetime

theorem groupStep_consistent {p : PState} (h : alphaConsistent p) (m : ℝ) :
    alphaConsistent (groupStep m p) := by
  unfold groupStep
  split_ifs
  · show particleAlphaOf (p.lifetime - m) = particleAlphaOf (p.lifetime - m)
    rfl
  · exact h

theorem particleRun_consistent {p : PState} (h : alphaConsistent p)
    (ms : List ℝ) : alphaConsistent (particleRun ms p) := by
  induction ms generalizing p with
  | nil => exact h
  | cons m t ih =>
    rw [particleRun_cons]
    exact ih (groupStep_consistent h m)

/-- Claim C3 (amended): after every applied update (at least one tick on a
live particle, any speed multipliers), the particle alpha equals 255 times
remaining lifetime divided by the global constant PARTICLE_LIFETIME = 40 --
not the particle own initial lifetime -- clamped to [0, 255] and truncated. -/
theorem particle_alpha_const_denominator (mults : List ℝ) (p : PState)
    (halive : p.alive = true) (hne : mults ≠ []) :
    (particleRun mults p).alpha =
      particleAlphaOf ((particleRun mults p).lifetime) := by
  cases mults with
  | nil => exact absurd rfl hne
  | cons m t =>
    rw [particleRun_cons]
    apply particleRun_consistent
    unfold groupStep
    rw [if_pos halive]
    show particleAlphaOf (p.lifetime - m) = particleAlphaOf (p.lifetime - m)
    rfl

/-- Witness for the amended claim C3: a fresh particle of lifetime 40 after
one tick at the default speed multiplier. -/
theorem particle_alpha_const_denominator_witness :
    (particleInit 0 0 0 0 0 0 40).alive = true ∧ ([(1:ℝ)] ≠ []) ∧
    (particleRun [(1:ℝ)] (particleInit 0 0 0 0 0 0 40)).alpha =
      particleAlphaOf ((particleRun [(1:ℝ)] (particleInit 0 0 0 0 0 0 40)).lifetime) :=
  ⟨rfl, by simp, particle_alpha_const_denominator [(1:ℝ)] _ rfl (by simp)⟩

/-- Counterexample to claim C3 as stated: a particle constructed with
initial lifetime 60 (the mouse-click path passes randint(30, 60) as the
lifetime); after one update its remaining lifetime is 59 and the code sets
alpha to 255, because it divides by the constant 40 -- whereas
255 * 59 / 60 clamped and truncated is 250. -/
theorem particle_alpha_cx :
    (particleUpdate 1 (particleInit 0 0 0 0 0 0 60)).alpha = 255 ∧
    (particleUpdate 1 (particleInit 0 0 0 0 0 0 60)).lifetime = 59 ∧
    ⌊max (min ((255:ℝ) * 59 / 60) 255) 0⌋ = (250 : ℤ) := by
  have hlife : (particleUpdate 1 (particleInit 0 0 0 0 0 0 60)).lifetime = 59 := by
    show (60:ℝ) - 1 = 59
    norm_num
  refine ⟨?_, hlife, ?_⟩
  · show particleAlphaOf ((60:ℝ) - 1) = 255
    unfold particleAlphaOf PARTICLE_LIFETIME
    rw [min_eq_right (by norm_num), max_eq_left (by norm_num)]
    rw [show (255:ℝ) = ((255:ℤ):ℝ) from by norm_num, Int.floor_intCast]
  · rw [min_eq_left (by norm_num), max_eq_left (by norm_num)]
    apply Int.floor_eq_iff.mpr
    constructor
    · push_cast
      norm_num
    · push_cast
      norm_num

/-- Invariant used for the monotonicity of alpha: the current alpha
dominates the clamp formula at the current lifetime (a fresh particle
starts at 255, which dominates everything the formula can produce). -/
def alphaDominated (p : PState) : Prop :=
  particleAlphaOf p.lifetime ≤ p.alpha

theorem groupStep_alpha_le {p : PState} (h : alphaDominated p) {m : ℝ}
    (hm : 0 ≤ m) :
    (groupStep m p).alpha ≤ p.alpha ∧ alphaDominated (groupStep m p) := by
  unfold groupStep
  split_ifs
  · constructor
    · show particleAlphaOf (p.lifetime - m) ≤ p.alpha
      exact le_trans (particleAlphaOf_mono (by linarith)) h
    · show particleAlphaOf (p.lifetime - m) ≤ particleAlphaOf (p.lifetime - m)
      exact le_rfl
  · exact ⟨le_rfl, h⟩

theorem particleRun_dominated {p : PState} (h : alphaDominated p) (k : ℕ) :
    alphaDominated (particleRun (List.replicate k 1) p) := by
  induction k with
  | zero => exact h
  | succ k ih =>
    rw [particleRun_replicate_succ]
    exact (groupStep_alpha_le ih (by norm_num)).2

/-- The full trajectory of a particle of integer lifetime n under unit speed
multipliers: after k ticks (1 <= k <= n) the lifetime is n - k, alpha
follows the clamp formula, and the particle is alive exactly while k < n. -/
theorem particleRun_replicate_state (n k : ℕ) (hk1 : 1 ≤ k) (hkn : k ≤ n)
    (pX pY vX vY gX gY : ℝ) :
    (particleRun (List.replicate k 1)
        (particleInit pX pY vX vY gX gY (n:ℝ))).lifetime = (n:ℝ) - k ∧
    (particleRun (List.replicate k 1)
        (particleInit pX pY vX vY gX gY (n:ℝ))).alpha = particleAlphaOf ((n:ℝ) - k) ∧
    (particleRun (List.replicate k 1)
        (particleInit pX pY vX vY gX gY (n:ℝ))).alive = decide (k < n) := by
  induction k with
  | zero => exact absurd hk1 (by norm_num)
  | succ k ih =>
    rcases Nat.eq_zero_or_pos k with hk0 | hkpos
    · subst hk0
      have hrun0 : particleRun (List.replicate 0 1)
          (particleInit pX pY vX vY gX gY (n:ℝ)) =
          particleInit pX pY vX vY gX gY (n:ℝ) := rfl
      rw [particleRun_replicate_succ, hrun0]
      unfold groupStep particleInit
      rw [if_pos rfl]
      simp only [particleUpdate]
      refine ⟨by push_cast; ring, by push_cast; ring_nf, ?_⟩
      show (if (n:ℝ) - 1 ≤ 0 then false else true) = decide (0 + 1 < n)
      by_cases hn : 0 + 1 < n
      · have hn2 : (2:ℝ) ≤ (n:ℝ) := by exact_mod_cast hn
        rw [if_neg (by linarith)]
        simp [hn]
      · have hn1 : n = 1 := le_antisymm (by omega) hkn
        subst hn1
        rw [if_pos (by norm_num)]
        simp
    · have hkn2 : k ≤ n := by omega
      obtain ⟨ihl, iha, ihv⟩ := ih hkpos hkn2
      rw [particleRun_replicate_succ]
      have halive : (particleRun (List.replicate k 1)
          (particleInit pX pY vX vY gX gY (n:ℝ))).alive = true := by
        rw [ihv]
        simp only [decide_eq_true_eq]
        omega
      unfold groupStep
      rw [if_pos halive]
      unfold particleUpdate
      rw [ihl]
      refine ⟨by push_cast; ring, by push_cast; ring_nf, ?_⟩
      show (if (n:ℝ) - k - 1 ≤ 0 then false else _) = decide (k + 1 < n)
      by_cases hn : k + 1 < n
      · have hn2 : ((k:ℝ) + 2) ≤ (n:ℝ) := by exact_mod_cast hn
        rw [if_neg (by linarith), halive]
        simp [hn]
      · have hn1 : n = k + 1 := le_antisymm (by omega) hkn
        subst hn1
        rw [if_pos (by push_cast; ring_nf; norm_num)]
        simp

/-- Claim C9: under unit speed multipliers a particle of positive integer
initial lifetime n has a non-increasing alpha from each tick to the next,
and after exactly n ticks it is dead with alpha exactly 0. -/
theorem particle_monotone_dies (n k : ℕ) (pX pY vX vY gX gY : ℝ)
    (hn : 1 ≤ n) :
    (particleRun (List.replicate (k + 1) 1)
        (particleInit pX pY vX vY gX gY (n:ℝ))).alpha ≤
      (particleRun (List.replicate k 1)
        (particleInit pX pY vX vY gX gY (n:ℝ))).alpha ∧
    (particleRun (List.replicate n 1)
        (particleInit pX pY vX vY gX gY (n:ℝ))).alive = false ∧
    (particleRun (List.replicate n 1)
        (particleInit pX pY vX vY gX gY (n:ℝ))).alpha = 0 := by
  have hdom0 : alphaDominated (particleInit pX pY vX vY gX gY (n:ℝ)) :=
    particleAlphaOf_le _
  obtain ⟨hl, ha, hv⟩ := particleRun_replicate_state n n hn le_rfl pX pY vX vY gX gY
  refine ⟨?_, ?_, ?_⟩
  · rw [particleRun_replicate_succ]
    exact (groupStep_alpha_le (particleRun_dominated hdom0 k) (by norm_num)).1
  · rw [hv]
    simp
  · rw [ha, sub_self, particleAlphaOf_zero]

/-- Witness for claim C9 at n = 1, k = 0 and a particle at the origin. -/
theorem particle_monotone_dies_witness :
    1 ≤ 1 ∧
    ((particleRun (List.replicate (0 + 1) 1)
        (particleInit 0 0 0 0 0 0 ((1:ℕ):ℝ))).alpha ≤
      (particleRun (List.replicate 0 1)
        (particleInit 0 0 0 0 0 0 ((1:ℕ):ℝ))).alpha ∧
    (particleRun (List.replicate 1 1)
        (particleInit 0 0 0 0 0 0 ((1:ℕ):ℝ))).alive = false ∧
    (particleRun (List.replicate 1 1)
        (particleInit 0 0 0 0 0 0 ((1:ℕ):ℝ))).alpha = 0) :=
  ⟨le_refl 1, particle_monotone_dies 1 0 0 0 0 0 0 0 (le_refl 1)⟩

/-- Arc init angle selection (source line 156): angle if angle else
random() * 2 * pi.  Python truthiness: both None and 0.0 take the fallback,
so the random draw (passed as a parameter) is stored in both cases. -/
def arcInitAngle (angle : Option ℝ) (draw : ℝ) : ℝ :=
  match angle with
  | none => draw
  | some a => if a = 0 then draw else a

/-- Arc init speed selection (source lines 151-154): if speed is truthy it
is kept, else choice([1, -1]) * pi / randint(ARC_SPEED_MIN, ARC_SPEED_MAX);
the drawn sign and integer are passed as parameters.  Python truthiness:
both None and 0 take the random fallback. -/
def arcInitSpeed (speed : Option ℝ) (sgn : ℝ) (k : ℕ) : ℝ :=
  match speed with
  | none => sgn * Real.pi / k
  | some s => if s = 0 then sgn * Real.pi / k else s

/-- Claim C10: the Arc constructor tests its optional angle and speed for
truthiness, so an explicitly passed angle 0.0 (or speed 0) is discarded and
the randomly drawn value is stored instead, exactly as if the argument had
been omitted. -/
theorem arc_init_truthiness (draw sgn : ℝ) (k : ℕ) :
    arcInitAngle (some 0) draw = arcInitAngle none draw ∧
    arcInitAngle (some 0) draw = draw ∧
    arcInitSpeed (some 0) sgn k = arcInitSpeed none sgn k ∧
    arcInitSpeed (some 0) sgn k = sgn * Real.pi / k := by
  refine ⟨?_, ?_, ?_, ?_⟩ <;> simp [arcInitAngle, arcInitSpeed]

end Circles
